import Mathlib

/-!
Shallow embedding of `helpers/filesystem_load_simulator.py`.

The script maintains a shared Python list `fset` of filenames guarded by a
single `threading.Lock`.  Five thread classes (FileCreator, FileDeleter,
MetaChanger, Reader, Writer) repeatedly sleep and then perform one cycle of
work against `fset` and the filesystem.  We model:

  * the registry as a Lean `List String` (a Python list of filenames);
  * `random.choice(seq)` by an oracle index `i : Nat`, reduced modulo the
    length (Python picks a uniformly random index into the sequence);
  * `randint(a, b)` (inclusive uniform integer) by `a + r % (b - a + 1)`
    for an oracle `r : Nat`;
  * the filesystem as an association list of files (name, size, mode);
  * each thread class's loop body as a pure function from the shared state
    and the random/failure oracles to the next shared state.

Lock-protected blocks in the source execute atomically; each cycle function
below corresponds to one iteration of a thread's `while True` body, with the
interleaving of lock-protected sections handled by the labelled transition
system further down.
-/

abbrev Filename := String

/-- The shared list `fset` of "at rest" filenames (the spec's Registry). -/
abbrev Registry := List Filename

/-- Python `randint(a, b)` returns a uniform integer in `[a, b]` (both ends
included); `r` is the oracle for the random draw. -/
def randint (a b r : Nat) : Nat := a + r % (b - a + 1)

/-- The claim pattern shared by FileDeleter, MetaChanger, Reader and Writer
(lines 82-85, 104-107, 130-133, 156-159 of the source):

    with self.lock:
        if len(self.set) != 0:
            file = choice(self.set)
            self.set.remove(file)

`choice` picks the element at a uniformly random index (oracle `i`), and
`list.remove` deletes the first occurrence equal to that element. -/
def claimRandom (l : Registry) (i : Nat) : Option Filename × Registry :=
  if l.length = 0 then (none, l)
  else
    let f := l.getD (i % l.length) ""
    (some f, l.erase f)

/-- One file on disk: name, size in bytes, permission mode bits. -/
structure DFile where
  name : Filename
  size : Nat
  mode : Nat
deriving DecidableEq

/-- The simulation directory: flat, so a list of files with distinct names
(name uniqueness is a hypothesis of the theorems, as directories enforce it). -/
abbrev Disk := List DFile

/-- Does a file with this name exist on disk? -/
def diskHas (d : Disk) (f : Filename) : Bool :=
  d.any (fun df => df.name == f)

/-- `os.remove` / best-effort removal: drop the entry named `f` (no-op when
absent; the fallible variant used by teardown is `removeFile` below). -/
def diskRemove (d : Disk) (f : Filename) : Disk :=
  d.filter (fun df => !(df.name == f))

/-- `open(f, 'w+')` followed by writing `n` bytes: truncate/create `f` with
size `n`; an existing file keeps its mode, a new file gets a default mode. -/
def diskWrite (d : Disk) (f : Filename) (n : Nat) : Disk :=
  match d.find? (fun df => df.name == f) with
  | some df => ⟨f, n, df.mode⟩ :: diskRemove d f
  | none => ⟨f, n, 438⟩ :: d

/-- `os.chmod(f, m)`: set the mode of the file named `f`, if present. -/
def diskChmod (d : Disk) (f : Filename) (m : Nat) : Disk :=
  d.map (fun df => if df.name == f then ⟨df.name, df.size, m⟩ else df)

/-- Size of the file named `f`, when it exists. -/
def diskSize (d : Disk) (f : Filename) : Option Nat :=
  (d.find? (fun df => df.name == f)).map (fun df => df.size)

/-- Mode of the file named `f`, when it exists. -/
def diskMode (d : Disk) (f : Filename) : Option Nat :=
  (d.find? (fun df => df.name == f)).map (fun df => df.mode)

/-- `os.listdir`: the names present in the directory. -/
def listdir (d : Disk) : List Filename := d.map (fun df => df.name)

/-- The shared state an actor cycle touches: the registry list `fset` and the
simulation directory. -/
structure SimState where
  reg : Registry
  disk : Disk
deriving DecidableEq

/-- One iteration of `FileCreator.run` (lines 49-67): write `randint`-many
urandom bytes to a fresh timestamp-named file; on any failure, best-effort
remove the partial file (`except OSError: pass`) and skip registration;
on success, append the filename to `fset` under the lock. -/
def creatorCycle (s : SimState) (fname : Filename) (lo hi r : Nat)
    (fails : Bool) : SimState :=
  if fails then ⟨s.reg, diskRemove s.disk fname⟩
  else ⟨s.reg ++ [fname], diskWrite s.disk fname (randint lo hi r)⟩

/-- One iteration of `FileDeleter.run` (lines 77-89): under the lock, claim a
random filename (if any) and `os.remove` it, ignoring `OSError`; the name is
never returned to `fset`. -/
def deleterCycle (s : SimState) (i : Nat) : SimState :=
  match claimRandom s.reg i with
  | (none, _) => s
  | (some f, rest) => ⟨rest, diskRemove s.disk f⟩

/-- One iteration of `MetaChanger.run` (lines 99-114): claim a random
filename under the lock; if one was claimed, `chmod` it to
`S_IREAD|S_IWRITE|S_IEXEC` (= 448), ignoring `OSError` (e.g. the file is
gone); then re-append the filename under the lock in either case. -/
def metaChangerCycle (s : SimState) (i : Nat) : SimState :=
  match claimRandom s.reg i with
  | (none, _) => s
  | (some f, rest) =>
      let d := if diskHas s.disk f then diskChmod s.disk f 448 else s.disk
      ⟨rest ++ [f], d⟩

/-- Result of one Reader iteration: the new shared state, the filename held
when an uncaught exception escaped `run` (if any), and how many bytes were
read. -/
structure ReadResult where
  st : SimState
  raised : Option Filename
  bytesRead : Nat
deriving DecidableEq

/-- One iteration of `Reader.run` (lines 125-139): claim a random filename
under the lock; if one was claimed, `open` it and read `randint`-many bytes
(a read returns at most the file size), then re-append the filename under
the lock.  Nothing is caught: if the file is gone, the `IOError` from `open`
propagates out of `run` and the filename is never re-appended. -/
def readerCycle (s : SimState) (i lo hi r : Nat) : ReadResult :=
  match claimRandom s.reg i with
  | (none, _) => ⟨s, none, 0⟩
  | (some f, rest) =>
      match diskSize s.disk f with
      | none => ⟨⟨rest, s.disk⟩, some f, 0⟩
      | some sz => ⟨⟨rest ++ [f], s.disk⟩, none, min (randint lo hi r) sz⟩

/-- One iteration of `Writer.run` (lines 151-171): claim a random filename
under the lock; if one was claimed, truncate it and write `randint`-many
urandom bytes; on `IOError` during the write, `remove` the file and set
`file = None` so it is not re-appended; on success, re-append it under the
lock. -/
def writerCycle (s : SimState) (i lo hi r : Nat) (writeFails : Bool) :
    SimState :=
  match claimRandom s.reg i with
  | (none, _) => s
  | (some f, rest) =>
      if writeFails then ⟨rest, diskRemove s.disk f⟩
      else ⟨rest ++ [f], diskWrite s.disk f (randint lo hi r)⟩

/-- `os.remove` as the shutdown path calls it, with no surrounding
`try`/`except`: removing a missing file raises `OSError`. -/
def removeFile (d : Disk) (f : Filename) : Except String Disk :=
  if diskHas d f then .ok (diskRemove d f) else .error ("OSError: " ++ f)

/-! ### Labelled transition system for the concurrent registry discipline

Every access to `fset` in the source is a lock-protected critical section, so
an execution of the whole program is an interleaving of atomic registry
operations.  Each constructor below is one such critical section, labelled by
which actor performed it:

  * `claim`: the claim pattern (`choice` + `remove`) when the list is
    non-empty, performed by an actor currently holding nothing;
  * `claimEmpty`: the same critical section when the list is empty (no-op);
  * `release`: `self.set.append(file)` re-appending a held filename
    (MetaChanger line 114, Reader line 139, Writer line 171);
  * `insert`: `self.set.append(filename)` of a fresh created filename
    (FileCreator line 67);
  * `retire`: a held filename is dropped without re-appending (FileDeleter,
    or Writer after a failed write);
  * `drain`: the registry's members are all taken away at shutdown.

`held` records which actor (by id) holds which claimed filename. -/

structure SysState where
  reg : Registry
  held : List (Nat × Filename)
deriving DecidableEq

/-- Operation labels of the registry transition system. -/
inductive Op where
  | claim (a i : Nat)
  | release (a : Nat) (f : Filename)
  | insert (a : Nat) (f : Filename)
  | retire (a : Nat) (f : Filename)
  | drain
deriving DecidableEq

/-- One atomic registry critical section. -/
inductive Step : SysState → Op → SysState → Prop where
  | claim (s : SysState) (a i : Nat) (f : Filename) (rest : Registry)
      (hfree : ∀ g, (a, g) ∉ s.held)
      (hcr : claimRandom s.reg i = (some f, rest)) :
      Step s (.claim a i) ⟨rest, (a, f) :: s.held⟩
  | claimEmpty (s : SysState) (a i : Nat)
      (hcr : (claimRandom s.reg i).1 = none) :
      Step s (.claim a i) s
  | release (s : SysState) (a : Nat) (f : Filename)
      (h : (a, f) ∈ s.held) :
      Step s (.release a f) ⟨s.reg ++ [f], s.held.erase (a, f)⟩
  | insert (s : SysState) (a : Nat) (f : Filename)
      (hfr : f ∉ s.reg) (hfh : ∀ b, (b, f) ∉ s.held) :
      Step s (.insert a f) ⟨s.reg ++ [f], s.held⟩
  | retire (s : SysState) (a : Nat) (f : Filename)
      (h : (a, f) ∈ s.held) :
      Step s (.retire a f) ⟨s.reg, s.held.erase (a, f)⟩
  | drain (s : SysState) :
      Step s .drain ⟨[], s.held⟩

/-- A finite interleaving of atomic registry operations. -/
inductive Trace : SysState → List Op → SysState → Prop where
  | refl (s : SysState) : Trace s [] s
  | step {s₁ s₂ s₃ : SysState} {op : Op} {ops : List Op} :
      Step s₁ op s₂ → Trace s₂ ops s₃ → Trace s₁ (op :: ops) s₃

/-- System invariant: the registry has no duplicates, no filename is held by
two actors, and a held filename is absent from the registry. -/
def SysInv (s : SysState) : Prop :=
  s.reg.Nodup ∧ (s.held.map Prod.snd).Nodup ∧
  ∀ p ∈ s.held, p.2 ∉ s.reg

/-- The filenames the simulation has not destroyed: at rest in the registry
or held by some actor. -/
def live (s : SysState) : List Filename :=
  s.reg ++ s.held.map Prod.snd

/-! ### Lock/IO event traces of the actor loop bodies

For the locking-discipline claim we record, for each branch of each thread
class's loop body, the sequence of actions it performs, tagged with whether
the Registry lock is held and whether the action is filesystem I/O. -/

structure Ev where
  locked : Bool
  fsOp : Bool
  tag : String
deriving DecidableEq

/-- `FileCreator.run` body (lines 49-67), by whether creation failed:
open/write the new file (unlocked I/O); on failure best-effort remove it
(unlocked I/O); on success append to `fset` under the lock. -/
def creatorEvents (fails : Bool) : List Ev :=
  if fails then
    [⟨false, true, "open+write new file"⟩, ⟨false, true, "remove partial file"⟩]
  else
    [⟨false, true, "open+write new file"⟩, ⟨true, false, "fset.append"⟩]

/-- `FileDeleter.run` body (lines 77-89), by whether the registry was empty:
the claim and the `os.remove` of the claimed file both happen inside
`with self.lock:` — the deletion I/O is performed while the lock is held. -/
def deleterEvents (empty : Bool) : List Ev :=
  if empty then [⟨true, false, "len check"⟩]
  else [⟨true, false, "choice+remove from fset"⟩, ⟨true, true, "os.remove"⟩]

/-- `MetaChanger.run` body (lines 99-114), by whether the registry was empty:
claim under the lock, `chmod` unlocked (errors swallowed either way), then
re-append under the lock. -/
def metaChangerEvents (empty : Bool) : List Ev :=
  if empty then [⟨true, false, "len check"⟩]
  else [⟨true, false, "choice+remove from fset"⟩, ⟨false, true, "chmod"⟩,
        ⟨true, false, "fset.append"⟩]

/-- `Reader.run` body (lines 125-139), by whether the registry was empty and
whether the open/read raised: claim under the lock, open/read unlocked, and
on success re-append under the lock (on failure the loop body aborts). -/
def readerEvents (empty fails : Bool) : List Ev :=
  if empty then [⟨true, false, "len check"⟩]
  else if fails then
    [⟨true, false, "choice+remove from fset"⟩, ⟨false, true, "open (raises)"⟩]
  else
    [⟨true, false, "choice+remove from fset"⟩, ⟨false, true, "open+read"⟩,
     ⟨true, false, "fset.append"⟩]

/-- `Writer.run` body (lines 151-171), by whether the registry was empty and
whether the write raised `IOError`: claim under the lock, truncate/write
unlocked, on failure remove the file unlocked, on success re-append under
the lock. -/
def writerEvents (empty fails : Bool) : List Ev :=
  if empty then [⟨true, false, "len check"⟩]
  else if fails then
    [⟨true, false, "choice+remove from fset"⟩, ⟨false, true, "open+write"⟩,
     ⟨false, true, "os.remove"⟩]
  else
    [⟨true, false, "choice+remove from fset"⟩, ⟨false, true, "open+write"⟩,
     ⟨true, false, "fset.append"⟩]

/-- An event that performs filesystem I/O while holding the Registry lock. -/
def lockedFsOp (e : Ev) : Bool := e.locked && e.fsOp

/-- The `KeyboardInterrupt` teardown in `main` (lines 272-280):

    with lck:
        [remove(file) for file in fset]
        [remove(file) for file in listdir(directory)]

Every tracked filename is removed from disk, then every file still found by
listing the directory; the list `fset` itself is never emptied.  The
`remove` calls are unguarded, so a failure escapes the teardown. -/
def teardown (s : SimState) : Except String SimState := do
  let d1 ← List.foldlM removeFile s.disk s.reg
  let d2 ← List.foldlM removeFile d1 (listdir d1)
  pure ⟨s.reg, d2⟩

/-! ### Basic facts about `claimRandom` -/

/-- On a non-empty registry, `claimRandom` returns the member at the
uniformly chosen index and erases its first occurrence. -/
theorem claimRandom_nonempty {l : Registry} (i : Nat) (h : l ≠ []) :
    claimRandom l i =
      (some (l.getD (i % l.length) ""), l.erase (l.getD (i % l.length) "")) := by
  have hl : l.length ≠ 0 := by simpa using h
  simp [claimRandom, hl]

/-- Anything `claimRandom` returns is a member, and the remaining registry is
the erasure of that member. -/
theorem claimRandom_some {l rest : Registry} {i : Nat} {f : Filename}
    (h : claimRandom l i = (some f, rest)) :
    f ∈ l ∧ rest = l.erase f := by
  by_cases hl : l.length = 0
  · simp [claimRandom, hl] at h
  · rw [claimRandom_nonempty i (by simpa using hl)] at h
    have hf : l.getD (i % l.length) "" = f := by
      have := congrArg Prod.fst h
      simpa using this
    have hrest : l.erase (l.getD (i % l.length) "") = rest := congrArg Prod.snd h
    have hlt : i % l.length < l.length := Nat.mod_lt _ (Nat.pos_of_ne_zero hl)
    have hmem : l.getD (i % l.length) "" ∈ l := by
      rw [List.getD_eq_getElem l "" hlt]
      exact List.getElem_mem hlt
    exact ⟨hf ▸ hmem, by rw [← hrest, hf]⟩

/-! ### Preservation of the system invariant -/

theorem sysInv_step {s t : SysState} {op : Op} (hinv : SysInv s)
    (hst : Step s op t) : SysInv t := by
  obtain ⟨hreg, hheld, hdisj⟩ := hinv
  cases hst with
  | claim a i f rest hfree hcr =>
      obtain ⟨hfmem, hrest⟩ := claimRandom_some hcr
      subst hrest
      refine ⟨hreg.erase f, ?_, ?_⟩
      · simp only [List.map_cons]
        refine List.nodup_cons.mpr ⟨?_, hheld⟩
        intro hfh
        obtain ⟨p, hp, hpf⟩ := List.mem_map.mp hfh
        exact hdisj p hp (hpf ▸ hfmem)
      · intro p hp
        rcases List.mem_cons.mp hp with hph | hpt
        · subst hph; exact hreg.not_mem_erase
        · exact fun hmem => hdisj p hpt (List.mem_of_mem_erase hmem)
  | claimEmpty a i hcr => exact ⟨hreg, hheld, hdisj⟩
  | release a f h =>
      have hfreg : f ∉ s.reg := hdisj (a, f) h
      have hheld' : s.held.Nodup := List.Nodup.of_map _ hheld
      refine ⟨hreg.append (List.nodup_singleton f) ?_, ?_, ?_⟩
      · intro x hx hx1
        simp only [List.mem_singleton] at hx1
        exact hfreg (hx1 ▸ hx)
      · exact List.Nodup.sublist (List.Sublist.map _ (List.erase_sublist _ _)) hheld
      · intro p hp hmem
        have hpheld : p ∈ s.held := List.mem_of_mem_erase hp
        rcases List.mem_append.mp hmem with hr | hf
        · exact hdisj p hpheld hr
        · simp only [List.mem_singleton] at hf
          have : p = (a, f) :=
            List.inj_on_of_nodup_map hheld hpheld h (by simpa using hf)
          exact absurd (this ▸ hp) (hheld'.not_mem_erase)
  | insert a f hfr hfh =>
      refine ⟨hreg.append (List.nodup_singleton f) ?_, hheld, ?_⟩
      · intro x hx hx1
        simp only [List.mem_singleton] at hx1
        exact hfr (hx1 ▸ hx)
      · intro p hp hmem
        rcases List.mem_append.mp hmem with hr | hf
        · exact hdisj p hp hr
        · simp only [List.mem_singleton] at hf
          exact hfh p.1 (by simpa [← hf] using hp)
  | retire a f h =>
      exact ⟨hreg,
        List.Nodup.sublist (List.Sublist.map _ (List.erase_sublist _ _)) hheld,
        fun p hp => hdisj p (List.mem_of_mem_erase hp)⟩
  | drain => exact ⟨List.nodup_nil, hheld, by simp⟩

theorem sysInv_trace {s t : SysState} {ops : List Op} (hinv : SysInv s)
    (htr : Trace s ops t) : SysInv t := by
  induction htr with
  | refl s => exact hinv
  | step hst _ ih => exact ih (sysInv_step hinv hst)

/-! ### Conservation of live filenames -/

/-- A single registry operation that is neither a drain nor a retirement of
`f` keeps `f` live (at rest or held). -/
theorem live_step {s t : SysState} {op : Op}
    (hst : Step s op t) (f : Filename) (hf : f ∈ live s)
    (hnd : op ≠ .drain) (hnr : ∀ b, op ≠ .retire b f) : f ∈ live t := by
  cases hst with
  | claim a i g rest hfree hcr =>
      obtain ⟨hgmem, hrest⟩ := claimRandom_some hcr
      subst hrest
      simp only [live, List.map_cons, List.mem_append, List.mem_cons] at hf ⊢
      rcases hf with hreg | hsnd
      · by_cases hfg : f = g
        · exact Or.inr (Or.inl hfg)
        · exact Or.inl ((List.mem_erase_of_ne hfg).mpr hreg)
      · exact Or.inr (Or.inr hsnd)
  | claimEmpty a i hcr => exact hf
  | release a g h =>
      simp only [live, List.mem_append, List.mem_singleton] at hf ⊢
      rcases hf with hreg | hsnd
      · exact Or.inl (Or.inl hreg)
      · obtain ⟨p, hp, hpf⟩ := List.mem_map.mp hsnd
        by_cases hpg : p = (a, g)
        · exact Or.inl (Or.inr (by rw [← hpf, hpg]))
        · exact Or.inr (List.mem_map.mpr ⟨p, (List.mem_erase_of_ne hpg).mpr hp, hpf⟩)
  | insert a g hfr hfh =>
      simp only [live, List.mem_append, List.mem_singleton] at hf ⊢
      rcases hf with hreg | hsnd
      · exact Or.inl (Or.inl hreg)
      · exact Or.inr hsnd
  | retire a g h =>
      have hgf : g ≠ f := by
        intro e
        exact hnr a (by rw [e])
      simp only [live, List.mem_append] at hf ⊢
      rcases hf with hreg | hsnd
      · exact Or.inl hreg
      · obtain ⟨p, hp, hpf⟩ := List.mem_map.mp hsnd
        have hpg : p ≠ (a, g) := by
          intro e
          exact hgf (by rw [← hpf, e])
        exact Or.inr (List.mem_map.mpr ⟨p, (List.mem_erase_of_ne hpg).mpr hp, hpf⟩)
  | drain => exact absurd rfl hnd

/-- Along any interleaving containing no drain and no retirement of `f`, a
live filename stays live. -/
theorem live_trace {s t : SysState} {ops : List Op} (htr : Trace s ops t)
    (f : Filename) (hf : f ∈ live s) (hnd : Op.drain ∉ ops)
    (hnr : ∀ b, Op.retire b f ∉ ops) : f ∈ live t := by
  induction htr with
  | refl s => exact hf
  | step hst htr ih =>
      refine ih ?_ (fun h => hnd (List.mem_cons_of_mem _ h))
        (fun b h => hnr b (List.mem_cons_of_mem _ h))
      refine live_step hst f hf (fun e => hnd ?_) (fun b e => hnr b ?_)
      · rw [← e]; exact List.mem_cons_self ..
      · rw [← e]; exact List.mem_cons_self ..

/-! ### Facts about the shutdown teardown -/

/-- A file exists on disk exactly when its name is in the directory listing. -/
theorem diskHas_iff_mem_listdir {d : Disk} {f : Filename} :
    diskHas d f = true ↔ f ∈ listdir d := by
  simp only [diskHas, listdir, List.any_eq_true, List.mem_map, beq_iff_eq]

/-- Removing one name keeps every other existing name on disk. -/
theorem diskHas_diskRemove_of_ne {d : Disk} {f k : Filename} (hfk : f ≠ k)
    (h : diskHas d f = true) : diskHas (diskRemove d k) f = true := by
  simp only [diskHas, diskRemove, List.any_eq_true, beq_iff_eq] at h ⊢
  obtain ⟨df, hdf, hname⟩ := h
  refine ⟨df, List.mem_filter.mpr ⟨hdf, ?_⟩, hname⟩
  simp [hname, hfk]

/-- A name missing from disk is still missing after a removal. -/
theorem diskHas_diskRemove_of_not {d : Disk} {f k : Filename}
    (h : diskHas d f = false) : diskHas (diskRemove d k) f = false := by
  simp only [diskHas, diskRemove, List.any_eq_false, beq_iff_eq] at h ⊢
  intro df hdf
  exact h df (List.mem_of_mem_filter hdf)

/-- Folding `diskRemove` over a list of names filters out every file whose
name occurs in the list. -/
theorem foldl_diskRemove_eq_filter (ks : List Filename) (d : Disk) :
    List.foldl diskRemove d ks =
      d.filter (fun df => !(ks.contains df.name)) := by
  induction ks generalizing d with
  | nil => simp
  | cons k ks ih =>
      rw [List.foldl_cons, ih]
      unfold diskRemove
      rw [List.filter_filter]
      apply List.filter_congr
      intro df _
      simp only [List.contains_cons, Bool.not_or]
      rw [Bool.and_comm]

/-- When every name in `ks` is on disk and `ks` has no duplicates, the
unguarded removal loop succeeds and computes the pure fold. -/
theorem foldlM_removeFile_ok (ks : List Filename) (d : Disk)
    (hnd : ks.Nodup) (hall : ∀ f ∈ ks, diskHas d f = true) :
    List.foldlM removeFile d ks = .ok (List.foldl diskRemove d ks) := by
  induction ks generalizing d with
  | nil => rfl
  | cons k ks ih =>
      have hk : diskHas d k = true := hall k (List.mem_cons_self ..)
      have hstep : removeFile d k = .ok (diskRemove d k) := by
        simp [removeFile, hk]
      rw [List.foldlM_cons, hstep]
      show List.foldlM removeFile (diskRemove d k) ks = _
      rw [ih (diskRemove d k) (List.nodup_cons.mp hnd).2 ?_, List.foldl_cons]
      intro f hf
      have hfk : f ≠ k := by
        intro e
        exact (List.nodup_cons.mp hnd).1 (e ▸ hf)
      exact diskHas_diskRemove_of_ne hfk (hall f (List.mem_cons_of_mem _ hf))

/-- When some name in `ks` is missing from disk, the unguarded removal loop
raises. -/
theorem foldlM_removeFile_error (ks : List Filename) (d : Disk)
    (hmiss : ∃ f ∈ ks, diskHas d f = false) :
    ∃ e, List.foldlM removeFile d ks = .error e := by
  induction ks generalizing d with
  | nil => simp at hmiss
  | cons k ks ih =>
      by_cases hk : diskHas d k = true
      · obtain ⟨f, hf, hfmiss⟩ := hmiss
        have hfk : f ≠ k := by
          intro e
          rw [e, hk] at hfmiss
          exact Bool.noConfusion hfmiss
        have hf' : f ∈ ks := by
          rcases List.mem_cons.mp hf with h1 | h2
          · exact absurd h1 hfk
          · exact h2
        obtain ⟨e, he⟩ := ih (diskRemove d k)
          ⟨f, hf', diskHas_diskRemove_of_not hfmiss⟩
        refine ⟨e, ?_⟩
        rw [List.foldlM_cons]
        have hstep : removeFile d k = .ok (diskRemove d k) := by
          simp [removeFile, hk]
        rw [hstep]
        exact he
      · refine ⟨"OSError: " ++ k, ?_⟩
        rw [List.foldlM_cons]
        have hstep : removeFile d k = .error ("OSError: " ++ k) := by
          simp [removeFile, hk]
        rw [hstep]
        rfl

/-- When the registry is duplicate-free and every tracked file exists, the
teardown succeeds: both removal passes run, the disk ends empty, and the
registry list comes out exactly as it went in — `fset` is never emptied. -/
theorem teardown_ok (s : SimState) (hreg : s.reg.Nodup)
    (hkeys : (listdir s.disk).Nodup)
    (hall : ∀ f ∈ s.reg, diskHas s.disk f = true) :
    teardown s = .ok ⟨s.reg, []⟩ := by
  have h1 : List.foldlM removeFile s.disk s.reg
      = .ok (List.foldl diskRemove s.disk s.reg) :=
    foldlM_removeFile_ok s.reg s.disk hreg hall
  set d1 := List.foldl diskRemove s.disk s.reg with hd1
  have hk1 : (listdir d1).Nodup := by
    refine List.Nodup.sublist ?_ hkeys
    rw [hd1, foldl_diskRemove_eq_filter]
    exact List.Sublist.map _ (List.filter_sublist _)
  have h2 : List.foldlM removeFile d1 (listdir d1)
      = .ok (List.foldl diskRemove d1 (listdir d1)) :=
    foldlM_removeFile_ok _ _ hk1 (fun f hf => diskHas_iff_mem_listdir.mpr hf)
  have h3 : List.foldl diskRemove d1 (listdir d1) = [] := by
    rw [foldl_diskRemove_eq_filter]
    refine List.filter_eq_nil_iff.mpr ?_
    intro df hdf
    have hmem : df.name ∈ listdir d1 := List.mem_map.mpr ⟨df, hdf, rfl⟩
    simp [hmem]
  show (List.foldlM removeFile s.disk s.reg >>= fun d =>
      SimState.mk s.reg <$> List.foldlM removeFile d (listdir d)) = _
  rw [h1]
  show SimState.mk s.reg <$> List.foldlM removeFile d1 (listdir d1) = _
  rw [h2, h3]
  rfl

theorem teardown_error (s : SimState)
    (hmiss : ∃ f ∈ s.reg, diskHas s.disk f = false) :
    ∃ e, teardown s = .error e := by
  obtain ⟨e, he⟩ := foldlM_removeFile_error s.reg s.disk hmiss
  refine ⟨e, ?_⟩
  show (List.foldlM removeFile s.disk s.reg >>= fun d =>
      SimState.mk s.reg <$> List.foldlM removeFile d (listdir d)) = _
  rw [he]
  rfl

/-! ### Helper facts about `randint` and the disk operations -/

theorem randint_ge (a b r : Nat) : a ≤ randint a b r :=
  Nat.le_add_right a _

theorem randint_le {a b : Nat} (r : Nat) (h : a ≤ b) : randint a b r ≤ b := by
  have hlt : r % (b - a + 1) < b - a + 1 := Nat.mod_lt _ (Nat.succ_pos _)
  have : r % (b - a + 1) ≤ b - a := Nat.lt_succ_iff.mp hlt
  calc a + r % (b - a + 1) ≤ a + (b - a) := Nat.add_le_add_left this a
    _ = b := Nat.add_sub_cancel' h

theorem getD_append_length {α : Type} (l : List α) (a d : α) :
    (l ++ [a]).getD l.length d = a := by
  induction l with
  | nil => rfl
  | cons x l ih => simp [ih]

theorem diskSize_diskWrite (d : Disk) (f : Filename) (n : Nat) :
    diskSize (diskWrite d f n) f = some n := by
  unfold diskWrite
  cases hfind : d.find? (fun df => df.name == f) with
  | none =>
      simp only [diskSize]
      rw [List.find?_cons_of_pos _ (by simp)]
      rfl
  | some df =>
      simp only [diskSize]
      rw [List.find?_cons_of_pos _ (by simp)]
      rfl

theorem diskHas_diskRemove_self (d : Disk) (f : Filename) :
    diskHas (diskRemove d f) f = false := by
  simp only [diskHas, diskRemove, List.any_eq_false, beq_iff_eq]
  intro df hdf
  have := List.of_mem_filter hdf
  simpa using this

theorem diskMode_diskChmod {d : Disk} {f : Filename} (m : Nat)
    (h : diskHas d f = true) : diskMode (diskChmod d f m) f = some m := by
  induction d with
  | nil => simp [diskHas] at h
  | cons df d ih =>
      by_cases hdf : df.name = f
      · simp only [diskMode, diskChmod, List.map_cons]
        rw [if_pos (by simpa using hdf)]
        rw [List.find?_cons_of_pos _ (by simpa using hdf)]
        rfl
      · have h' : diskHas d f = true := by
          simpa [diskHas, hdf] using h
        have ihd := ih h'
        simp only [diskMode, diskChmod, List.map_cons] at ihd ⊢
        rw [if_neg (by simpa using hdf)]
        rw [List.find?_cons_of_neg _ (by simpa using hdf)]
        exact ihd

/-! ## Claim theorems -/

/-- C1: under the lock, `claim_random` on a non-empty registry removes and
returns the member at the uniformly drawn index — every member is returned
by some in-range index, and (without duplicates) by exactly one, so the
choice is uniform over the members; on an empty registry it returns none,
leaves the registry unchanged and raises nothing, and the claiming actors
(Deleter, MetadataMutator, Reader, Writer) treat that as a no-op for the
cycle. -/
theorem claim_random_spec (l : Registry) (i : Nat) (s : SimState) :
    (l = [] → claimRandom l i = (none, l)) ∧
    (l ≠ [] →
      claimRandom l i =
        (some (l.getD (i % l.length) ""), l.erase (l.getD (i % l.length) "")) ∧
      ∀ f ∈ l, ∃ k, k < l.length ∧ (claimRandom l k).1 = some f) ∧
    (l.Nodup → ∀ k₁ k₂, k₁ < l.length → k₂ < l.length →
      (claimRandom l k₁).1 = (claimRandom l k₂).1 → k₁ = k₂) ∧
    (s.reg = [] →
      deleterCycle s i = s ∧ metaChangerCycle s i = s ∧
      readerCycle s i 0 0 0 = ⟨s, none, 0⟩ ∧ writerCycle s i 0 0 0 true = s) := by
  refine ⟨?_, ?_, ?_, ?_⟩
  · rintro rfl
    rfl
  · intro hne
    refine ⟨claimRandom_nonempty i hne, ?_⟩
    intro f hf
    obtain ⟨k, hk, hfk⟩ := List.mem_iff_getElem.mp hf
    refine ⟨k, hk, ?_⟩
    rw [claimRandom_nonempty k hne]
    simp only [Nat.mod_eq_of_lt hk]
    rw [List.getD_eq_getElem l "" hk, hfk]
  · intro hnd k₁ k₂ hk₁ hk₂ heq
    have hne : l ≠ [] := by
      intro e
      rw [e] at hk₁
      exact Nat.not_lt_zero _ hk₁
    rw [claimRandom_nonempty k₁ hne, claimRandom_nonempty k₂ hne] at heq
    simp only [Nat.mod_eq_of_lt hk₁, Nat.mod_eq_of_lt hk₂] at heq
    rw [List.getD_eq_getElem l "" hk₁, List.getD_eq_getElem l "" hk₂] at heq
    exact (hnd.getElem_inj_iff).mp (Option.some.injEq .. ▸ heq)
  · intro hre
    have hcr : claimRandom s.reg i = (none, s.reg) := by
      rw [hre]
      rfl
    refine ⟨?_, ?_, ?_, ?_⟩ <;>
      simp [deleterCycle, metaChangerCycle, readerCycle, writerCycle, hcr]

/-- C1 witness: on the empty registry the claim is a no-op returning none. -/
theorem claim_random_spec_w : claimRandom ([] : Registry) 0 = (none, []) :=
  (claim_random_spec [] 0 ⟨[], []⟩).1 rfl

/-- C2: mutual exclusion per file.  In any state reachable by an
interleaving of registry critical sections from a state satisfying the
invariant, a filename held by an actor is absent from the registry, no
second actor holds it, and no claim performed in that state can return
it. -/
theorem claim_mutual_exclusion (s₀ s : SysState) (ops : List Op)
    (h₀ : SysInv s₀) (htr : Trace s₀ ops s) (a : Nat) (f : Filename)
    (hf : (a, f) ∈ s.held) :
    f ∉ s.reg ∧ (∀ b, (b, f) ∈ s.held → b = a) ∧
    (∀ i g rest, claimRandom s.reg i = (some g, rest) → g ≠ f) := by
  obtain ⟨hreg, hheld, hdisj⟩ := sysInv_trace h₀ htr
  refine ⟨hdisj (a, f) hf, ?_, ?_⟩
  · intro b hb
    have := List.inj_on_of_nodup_map hheld hb hf (by rfl)
    exact congrArg Prod.fst this
  · intro i g rest hcr he
    exact hdisj (a, f) hf (he ▸ (claimRandom_some hcr).1)

/-- C2 witness: after one actor claims the single filename, it is absent
from the registry, only that actor holds it, and no further claim returns
it. -/
theorem claim_mutual_exclusion_w :
    ("x" : Filename) ∉ ([] : Registry) ∧
    (∀ b, (b, ("x" : Filename)) ∈ [((0 : Nat), ("x" : Filename))] → b = 0) ∧
    (∀ i g rest, claimRandom [] i = (some g, rest) → g ≠ "x") :=
  claim_mutual_exclusion ⟨["x"], []⟩ ⟨[], [(0, "x")]⟩ [.claim 0 0]
    ⟨List.nodup_singleton _, List.nodup_nil, fun p hp => absurd hp (List.not_mem_nil p)⟩
    (Trace.step
      (Step.claim _ 0 0 "x" [] (fun g => List.not_mem_nil (0, g)) (by decide))
      (Trace.refl _))
    0 "x" (List.mem_singleton.mpr rfl)

/-- C3: along any interleaving of claim/release/insert/retire/drain
critical sections from a good state, the registry never contains
duplicates; and a filename that was inserted or released stays live (in
the registry or held) as long as no drain and no retirement of it
intervenes. -/
theorem registry_no_dup_no_loss (s₀ : SysState) (h₀ : SysInv s₀) :
    (∀ ops t, Trace s₀ ops t → t.reg.Nodup) ∧
    (∀ pre (m : SysState) (a : Nat) (f : Filename) (m' : SysState) post s,
      Trace s₀ pre m →
      (Step m (.insert a f) m' ∨ Step m (.release a f) m') →
      Trace m' post s →
      Op.drain ∉ post → (∀ b, Op.retire b f ∉ post) →
      f ∈ live s) := by
  constructor
  · intro ops t htr
    exact (sysInv_trace h₀ htr).1
  · intro pre m a f m' post s hpre hmid hpost hnd hnr
    have hlive : f ∈ live m' := by
      rcases hmid with hins | hrel
      · cases hins with
        | insert hfr hfh => simp [live]
      · cases hrel with
        | release h => simp [live]
    exact live_trace hpost f hlive hnd hnr

/-- C3 witness: a freshly inserted filename is live after an empty
suffix of operations. -/
theorem registry_no_dup_no_loss_w : ("x" : Filename) ∈ live ⟨["x"], []⟩ :=
  (registry_no_dup_no_loss ⟨[], []⟩
      ⟨List.nodup_nil, List.nodup_nil, fun p hp => absurd hp (List.not_mem_nil p)⟩).2
    [] ⟨[], []⟩ 0 "x" ⟨["x"], []⟩ [] ⟨["x"], []⟩
    (Trace.refl _)
    (Or.inl (Step.insert _ 0 "x" (List.not_mem_nil _) (fun b => List.not_mem_nil (b, "x"))))
    (Trace.refl _)
    (List.not_mem_nil _)
    (fun _ => List.not_mem_nil _)

/-- C4 counterexample: the claim that every actor variant performs its
filesystem I/O unlocked is false — in `FileDeleter.run` the `os.remove`
of the claimed file executes inside the `with self.lock:` block, so the
deleter's non-empty cycle contains a locked I/O action. -/
theorem deleter_locked_io_cex :
    ((deleterEvents false).all fun e => !(lockedFsOp e)) = false := by decide

/-- C4 amended: Creator, MetadataMutator, Reader and Writer never perform
filesystem I/O while holding the Registry lock (they claim under the lock,
do their I/O unlocked, and re-acquire the lock only to release or insert);
the Deleter, however, deletes the file from disk while still holding the
lock — its non-empty cycle (and only that cycle) contains a locked I/O
action. -/
theorem actor_lock_io_discipline :
    ∀ b c : Bool,
      ((creatorEvents b).all fun e => !(lockedFsOp e)) = true ∧
      ((metaChangerEvents b).all fun e => !(lockedFsOp e)) = true ∧
      ((readerEvents b c).all fun e => !(lockedFsOp e)) = true ∧
      ((writerEvents b c).all fun e => !(lockedFsOp e)) = true ∧
      ((deleterEvents b).any lockedFsOp = !b) := by
  intro b c
  cases b <;> cases c <;> exact ⟨by decide, by decide, by decide, by decide, by decide⟩

/-- C5 counterexample: the teardown does not absorb deletion failures — a
registry tracking a file that is no longer on disk makes the unguarded
`remove` raise, and the error propagates out of the teardown. -/
theorem teardown_propagates_cex :
    teardown ⟨["a"], []⟩ = .error ("OSError: " ++ "a") := rfl

/-- C5 amended: the stop path deletes every tracked file and then every
remaining file found by listing the directory (so when all tracked files
exist, the whole disk ends up empty), but deletion failures are not
absorbed: if any tracked file is already gone, the `OSError` propagates
out of the teardown instead of being ignored. -/
theorem teardown_best_effort_amended (s : SimState) (hreg : s.reg.Nodup)
    (hkeys : (listdir s.disk).Nodup) :
    ((∀ f ∈ s.reg, diskHas s.disk f = true) → teardown s = .ok ⟨s.reg, []⟩) ∧
    ((∃ f ∈ s.reg, diskHas s.disk f = false) → ∃ e, teardown s = .error e) :=
  ⟨fun hall => teardown_ok s hreg hkeys hall,
   fun hmiss => teardown_error s hmiss⟩

/-- C5 amended witness: with one tracked file present on disk, the teardown
succeeds and empties the disk. -/
theorem teardown_best_effort_amended_w :
    teardown ⟨["a"], [⟨"a", 5, 438⟩]⟩ = .ok ⟨["a"], []⟩ :=
  (teardown_best_effort_amended ⟨["a"], [⟨"a", 5, 438⟩]⟩
    (by decide) (by decide)).1 (by decide)

/-- C6: the Writer claims a filename and picks a byte count in the write
range; if the write fails it deletes the file and does not return the
filename to the registry; if it succeeds it returns the filename, and the
file holds exactly the chosen number of bytes. -/
theorem writer_spec (s : SimState) (i lo hi r : Nat)
    (hne : s.reg ≠ []) (hnd : s.reg.Nodup) (hlohi : lo ≤ hi) :
    ∃ f, (claimRandom s.reg i).1 = some f ∧
      lo ≤ randint lo hi r ∧ randint lo hi r ≤ hi ∧
      f ∉ (writerCycle s i lo hi r true).reg ∧
      diskHas (writerCycle s i lo hi r true).disk f = false ∧
      (writerCycle s i lo hi r false).reg = s.reg.erase f ++ [f] ∧
      f ∈ (writerCycle s i lo hi r false).reg ∧
      diskSize (writerCycle s i lo hi r false).disk f =
        some (randint lo hi r) := by
  have hcr := claimRandom_nonempty i hne
  set f := s.reg.getD (i % s.reg.length) "" with hfdef
  have hw1 : writerCycle s i lo hi r true =
      ⟨s.reg.erase f, diskRemove s.disk f⟩ := by
    simp [writerCycle, hcr]
  have hw2 : writerCycle s i lo hi r false =
      ⟨s.reg.erase f ++ [f], diskWrite s.disk f (randint lo hi r)⟩ := by
    simp [writerCycle, hcr]
  refine ⟨f, by rw [hcr], randint_ge lo hi r, randint_le r hlohi,
    ?_, ?_, ?_, ?_, ?_⟩
  · rw [hw1]
    exact hnd.not_mem_erase
  · rw [hw1]
    exact diskHas_diskRemove_self s.disk f
  · rw [hw2]
  · rw [hw2]
    simp
  · rw [hw2]
    exact diskSize_diskWrite s.disk f (randint lo hi r)

/-- C6 witness: one claimed file, failing write deletes and drops it;
succeeding write of 2 bytes returns it. -/
theorem writer_spec_w :
    ∃ f, (claimRandom ["a"] 0).1 = some f ∧
      2 ≤ randint 2 2 0 ∧ randint 2 2 0 ≤ 2 ∧
      f ∉ (writerCycle ⟨["a"], [⟨"a", 1, 438⟩]⟩ 0 2 2 0 true).reg ∧
      diskHas (writerCycle ⟨["a"], [⟨"a", 1, 438⟩]⟩ 0 2 2 0 true).disk f = false ∧
      (writerCycle ⟨["a"], [⟨"a", 1, 438⟩]⟩ 0 2 2 0 false).reg =
        (["a"] : Registry).erase f ++ [f] ∧
      f ∈ (writerCycle ⟨["a"], [⟨"a", 1, 438⟩]⟩ 0 2 2 0 false).reg ∧
      diskSize (writerCycle ⟨["a"], [⟨"a", 1, 438⟩]⟩ 0 2 2 0 false).disk f =
        some (randint 2 2 0) :=
  writer_spec ⟨["a"], [⟨"a", 1, 438⟩]⟩ 0 2 2 0 (by decide) (by decide) (by decide)

/-- C7 counterexample: the shutdown pass over the registry deletes the
files but never empties the list `fset`: after a successful teardown of a
two-element registry, the registry still has size 2, not 0. -/
theorem teardown_registry_not_drained_cex :
    teardown ⟨["a", "b"], [⟨"a", 1, 438⟩, ⟨"b", 2, 438⟩]⟩ =
      .ok ⟨["a", "b"], []⟩ ∧ (["a", "b"] : Registry).length = 2 :=
  ⟨rfl, rfl⟩

/-- C7 amended: at shutdown the code iterates over every registry member
under the lock and deletes the corresponding files (the disk ends empty
when all tracked files exist), but it removes nothing from the registry:
after teardown the registry equals its pre-teardown contents, so its size
is 0 only if it was already 0. -/
theorem teardown_registry_unchanged (s : SimState) (hreg : s.reg.Nodup)
    (hkeys : (listdir s.disk).Nodup)
    (hall : ∀ f ∈ s.reg, diskHas s.disk f = true) :
    ∃ t, teardown s = .ok t ∧ t.reg = s.reg ∧ t.disk = [] ∧
      (t.reg.length = 0 ↔ s.reg.length = 0) :=
  ⟨⟨s.reg, []⟩, teardown_ok s hreg hkeys hall, rfl, rfl, Iff.rfl⟩

/-- C7 amended witness. -/
theorem teardown_registry_unchanged_w :
    ∃ t, teardown ⟨["b"], [⟨"b", 3, 438⟩]⟩ = .ok t ∧ t.reg = ["b"] ∧
      t.disk = [] ∧ (t.reg.length = 0 ↔ (["b"] : Registry).length = 0) :=
  teardown_registry_unchanged ⟨["b"], [⟨"b", 3, 438⟩]⟩
    (by decide) (by decide) (by decide)

/-- C8: the MetadataMutator claims a filename, attempts to chmod it to
owner read+write+execute (mode 448 = S_IREAD|S_IWRITE|S_IEXEC), and
returns the filename to the registry regardless of whether the chmod
succeeded (file present, mode set) or failed (file gone, OSError
swallowed, disk untouched). -/
theorem metachanger_spec (s : SimState) (i : Nat) (hne : s.reg ≠ []) :
    ∃ f, (claimRandom s.reg i).1 = some f ∧
      (metaChangerCycle s i).reg = s.reg.erase f ++ [f] ∧
      f ∈ (metaChangerCycle s i).reg ∧
      (diskHas s.disk f = true →
        diskMode (metaChangerCycle s i).disk f = some 448) ∧
      (diskHas s.disk f = false → (metaChangerCycle s i).disk = s.disk) := by
  have hcr := claimRandom_nonempty i hne
  set f := s.reg.getD (i % s.reg.length) "" with hfdef
  have hmc : metaChangerCycle s i =
      ⟨s.reg.erase f ++ [f],
        if diskHas s.disk f then diskChmod s.disk f 448 else s.disk⟩ := by
    simp [metaChangerCycle, hcr]
  refine ⟨f, by rw [hcr], by rw [hmc], by rw [hmc]; simp, ?_, ?_⟩
  · intro hd
    rw [hmc]
    simp only [hd, if_true]
    exact diskMode_diskChmod 448 hd
  · intro hd
    rw [hmc]
    simp [hd]

/-- C8 witness: with the file present, the mode is set and the filename is
returned to the registry. -/
theorem metachanger_spec_w :
    ∃ f, (claimRandom ["a"] 0).1 = some f ∧
      (metaChangerCycle ⟨["a"], [⟨"a", 9, 438⟩]⟩ 0).reg =
        (["a"] : Registry).erase f ++ [f] ∧
      f ∈ (metaChangerCycle ⟨["a"], [⟨"a", 9, 438⟩]⟩ 0).reg ∧
      (diskHas [⟨"a", 9, 438⟩] f = true →
        diskMode (metaChangerCycle ⟨["a"], [⟨"a", 9, 438⟩]⟩ 0).disk f = some 448) ∧
      (diskHas [⟨"a", 9, 438⟩] f = false →
        (metaChangerCycle ⟨["a"], [⟨"a", 9, 438⟩]⟩ 0).disk = [⟨"a", 9, 438⟩]) :=
  metachanger_spec ⟨["a"], [⟨"a", 9, 438⟩]⟩ 0 (by decide)

/-- C9: on success the Creator writes exactly `randint lo hi r` bytes
(within the creation range `[lo, hi]`) to the fresh uniquely named file
and inserts the filename into the registry, where `claim_random` can now
return it; on any failure it best-effort deletes the partial file
(ignoring absence) and does not insert the filename. -/
theorem creator_spec (s : SimState) (fname : Filename) (lo hi r : Nat)
    (hlohi : lo ≤ hi) (hfresh : fname ∉ s.reg) :
    (creatorCycle s fname lo hi r false).reg = s.reg ++ [fname] ∧
    diskSize (creatorCycle s fname lo hi r false).disk fname =
      some (randint lo hi r) ∧
    lo ≤ randint lo hi r ∧ randint lo hi r ≤ hi ∧
    (∃ k, (claimRandom (creatorCycle s fname lo hi r false).reg k).1 =
      some fname) ∧
    (creatorCycle s fname lo hi r true).reg = s.reg ∧
    fname ∉ (creatorCycle s fname lo hi r true).reg ∧
    diskHas (creatorCycle s fname lo hi r true).disk fname = false := by
  refine ⟨rfl, diskSize_diskWrite .., randint_ge .., randint_le r hlohi,
    ?_, rfl, hfresh, diskHas_diskRemove_self ..⟩
  refine ⟨s.reg.length, ?_⟩
  have hreg : (creatorCycle s fname lo hi r false).reg = s.reg ++ [fname] := rfl
  rw [hreg]
  have hne : s.reg ++ [fname] ≠ [] := by simp
  rw [claimRandom_nonempty _ hne]
  have hlt : s.reg.length < (s.reg ++ [fname]).length := by simp
  simp only [Nat.mod_eq_of_lt hlt]
  rw [getD_append_length s.reg fname ""]

/-- C9 witness: the `[100,100]` scenario — the created file has exactly 100
bytes and is claimable. -/
theorem creator_spec_w :
    (creatorCycle ⟨[], []⟩ "f" 100 100 0 false).reg = [] ++ ["f"] ∧
    diskSize (creatorCycle ⟨[], []⟩ "f" 100 100 0 false).disk "f" =
      some (randint 100 100 0) ∧
    100 ≤ randint 100 100 0 ∧ randint 100 100 0 ≤ 100 ∧
    (∃ k, (claimRandom (creatorCycle ⟨[], []⟩ "f" 100 100 0 false).reg k).1 =
      some "f") ∧
    (creatorCycle ⟨[], []⟩ "f" 100 100 0 true).reg = [] ∧
    "f" ∉ (creatorCycle ⟨[], []⟩ "f" 100 100 0 true).reg ∧
    diskHas (creatorCycle ⟨[], []⟩ "f" 100 100 0 true).disk "f" = false :=
  creator_spec ⟨[], []⟩ "f" 100 100 0 (Nat.le_refl 100) (List.not_mem_nil _)

/-- C10: the Reader claims a filename and reads up to a `randint`-chosen
byte count from the file start, then returns the filename to the registry;
when the file is gone, nothing is caught: the error propagates out of the
Reader's run body and the claimed filename is not returned to the
registry. -/
theorem reader_spec (s : SimState) (i lo hi r : Nat)
    (hne : s.reg ≠ []) (hnd : s.reg.Nodup) :
    ∃ f, (claimRandom s.reg i).1 = some f ∧
      (∀ sz, diskSize s.disk f = some sz →
        (readerCycle s i lo hi r).st.reg = s.reg.erase f ++ [f] ∧
        f ∈ (readerCycle s i lo hi r).st.reg ∧
        (readerCycle s i lo hi r).raised = none ∧
        (readerCycle s i lo hi r).bytesRead = min (randint lo hi r) sz ∧
        (readerCycle s i lo hi r).bytesRead ≤ randint lo hi r) ∧
      (diskSize s.disk f = none →
        (readerCycle s i lo hi r).raised = some f ∧
        (readerCycle s i lo hi r).st.reg = s.reg.erase f ∧
        f ∉ (readerCycle s i lo hi r).st.reg) := by
  have hcr := claimRandom_nonempty i hne
  set f := s.reg.getD (i % s.reg.length) "" with hfdef
  refine ⟨f, by rw [hcr], ?_, ?_⟩
  · intro sz hsz
    have hrc : readerCycle s i lo hi r =
        ⟨⟨s.reg.erase f ++ [f], s.disk⟩, none, min (randint lo hi r) sz⟩ := by
      simp [readerCycle, hcr, hsz]
    rw [hrc]
    exact ⟨rfl, by simp, rfl, rfl, Nat.min_le_left ..⟩
  · intro hsz
    have hrc : readerCycle s i lo hi r =
        ⟨⟨s.reg.erase f, s.disk⟩, some f, 0⟩ := by
      simp [readerCycle, hcr, hsz]
    rw [hrc]
    exact ⟨rfl, rfl, hnd.not_mem_erase⟩

/-- C10 witness: with the claimed file present (10 bytes) and a read range
of `[4,4]`, the Reader reads 4 bytes and returns the filename. -/
theorem reader_spec_w :
    ∃ f, (claimRandom ["a"] 0).1 = some f ∧
      (∀ sz, diskSize [⟨"a", 10, 438⟩] f = some sz →
        (readerCycle ⟨["a"], [⟨"a", 10, 438⟩]⟩ 0 4 4 0).st.reg =
          (["a"] : Registry).erase f ++ [f] ∧
        f ∈ (readerCycle ⟨["a"], [⟨"a", 10, 438⟩]⟩ 0 4 4 0).st.reg ∧
        (readerCycle ⟨["a"], [⟨"a", 10, 438⟩]⟩ 0 4 4 0).raised = none ∧
        (readerCycle ⟨["a"], [⟨"a", 10, 438⟩]⟩ 0 4 4 0).bytesRead =
          min (randint 4 4 0) sz ∧
        (readerCycle ⟨["a"], [⟨"a", 10, 438⟩]⟩ 0 4 4 0).bytesRead ≤
          randint 4 4 0) ∧
      (diskSize [⟨"a", 10, 438⟩] f = none →
        (readerCycle ⟨["a"], [⟨"a", 10, 438⟩]⟩ 0 4 4 0).raised = some f ∧
        (readerCycle ⟨["a"], [⟨"a", 10, 438⟩]⟩ 0 4 4 0).st.reg =
          (["a"] : Registry).erase f ∧
        f ∉ (readerCycle ⟨["a"], [⟨"a", 10, 438⟩]⟩ 0 4 4 0).st.reg) :=
  reader_spec ⟨["a"], [⟨"a", 10, 438⟩]⟩ 0 4 4 0 (by decide) (by decide)
